import Mathlib

/-!
Shallow embedding of `image2excel.py`, a script converting an image to an
Excel spreadsheet, together with proofs of the specified properties of its
scaler (`bound_image_to_size`), grid writer (`write_img_to_ws`), color-rule
applier (`apply_colors`) and column namer (`get_col_name` / `iter_col_names`).

Python real (float) arithmetic is modelled by exact rational arithmetic `ℚ`;
Python's `int()` truncation of a nonnegative value is the floor `⌊·⌋`;
images (3-dimensional uint8 arrays produced by `cv2.imread`) are modelled by
their dimensions together with a pixel-value function.
-/

/-- An image array: `shape = (height, width, channels)` with a value at each
(row, column, channel) index. `img.pixel r c k` models `img[r, c, k]`. -/
structure Img where
  height : ℕ
  width : ℕ
  channels : ℕ
  pixel : ℕ → ℕ → ℕ → ℕ

/-- `MAX_SIZE = (200, 477)` — max image dimension (height, width). -/
def MAX_SIZE : ℕ × ℕ := (200, 477)

/-- Model of `cv2.resize(img, (w, h))`: the result has width `w`, height `h`
and the same channel count; resampling ("standard image interpolation") is
modelled by nearest-neighbour sampling, which the claims never depend on. -/
def cv2_resize (img : Img) (w h : ℕ) : Img :=
  { height := h
    width := w
    channels := img.channels
    pixel := fun r c k => img.pixel (r * img.height / h) (c * img.width / w) k }

/-- `bound_image_to_size(img, size)` from `image2excel.py`:
bounds an image by the specified `size = (maxH, maxW)`, scaling down until it
fits.  Direct transcription: the early return when the image fits, the
branch condition `size[0]/max(img.shape[0], size[0]) <
size[1]/max(img.shape[1], size[1])`, and the two `cv2.resize` calls whose
non-limiting dimension is `int(dimension * scale)`. -/
def bound_image_to_size (img : Img) (size : ℕ × ℕ) : Img :=
  if img.height ≤ size.1 ∧ img.width ≤ size.2 then
    img
  else if (size.1 : ℚ) / (max img.height size.1 : ℕ) <
      (size.2 : ℚ) / (max img.width size.2 : ℕ) then
    -- Height is limiting; resize takes (width, height)
    cv2_resize img (⌊(img.width : ℚ) * ((size.1 : ℚ) / (img.height : ℚ))⌋.toNat) size.1
  else
    -- Width is limiting
    cv2_resize img size.2 (⌊(img.height : ℚ) * ((size.2 : ℚ) / (img.width : ℚ))⌋.toNat)

/-- `ROW_HEIGHT = 5`. -/
def ROW_HEIGHT : ℕ := 5

/-- `COL_WIDTH = 2.45`, as an exact rational. -/
def COL_WIDTH : ℚ := 245 / 100

/-- `FONT_SIZE = 2`. -/
def FONT_SIZE : ℕ := 2

/-- A written cell: `WriteOnlyCell(ws, value=val)` with
`Font(name='Calibri', size=FONT_SIZE)` and `Alignment(vertical='center')`,
as built by the helper `cell(val)` inside `write_img_to_ws`. -/
structure Cell where
  value : ℕ
  fontName : String
  fontSize : ℕ
  verticalAlignment : String
deriving DecidableEq

/-- The helper `cell(val)` of `write_img_to_ws`. -/
def mk_cell (val : ℕ) : Cell :=
  { value := val
    fontName := "Calibri"
    fontSize := FONT_SIZE
    verticalAlignment := "center" }

/-- `write_img_to_ws(img, ws)` from `image2excel.py`, restricted to the rows
it appends to the write-only worksheet (the row-height and column-width
cosmetics touch no cell data).  Transcribes the double loop
`for r in range(img.shape[0]): for channel in range(img.shape[2]):
ws.append([cell(x) for x in img[r, :, channel]])`. -/
def write_img_to_ws (img : Img) : List (List Cell) :=
  (List.range img.height).flatMap (fun r =>
    (List.range img.channels).map (fun channel =>
      (List.range img.width).map (fun c => mk_cell (img.pixel r c channel))))

/-- A two-stop color-scale conditional-formatting rule attached to a cell
range, as built by `ColorScaleRule(start_type='num', start_value=0,
start_color='000000', end_type='num', end_value=255, end_color=...)` and
`ws.conditional_formatting.add(range_string, rule)`. -/
structure Rule where
  start_type : String
  start_value : ℕ
  start_color : String
  end_type : String
  end_value : ℕ
  end_color : String
  cell_range : String
deriving DecidableEq

/-- `string.ascii_uppercase`. -/
def ascii_uppercase : String := "ABCDEFGHIJKLMNOPQRSTUVWXYZ"

/-- The `while n > 0` loop of `get_col_name`, with the loop variables `n` and
`col` as arguments: each iteration prepends
`string.ascii_uppercase[(n - 1) % 26]` to `col` and replaces `n` by
`(n - 1) // 26`. -/
def get_col_name_go (n : ℕ) (col : List Char) : List Char :=
  if 0 < n then
    get_col_name_go ((n - 1) / 26) (ascii_uppercase.toList.getD ((n - 1) % 26) 'A' :: col)
  else
    col
termination_by n
decreasing_by
  exact lt_of_le_of_lt (Nat.div_le_self _ _) (Nat.sub_lt (by omega) one_pos)

/-- `get_col_name(n)` from `image2excel.py`: the column base-alphabet name of
the 1-indexed column number `n`, computed by the `while` loop starting from
`col = ''`. -/
def get_col_name (n : ℕ) : String :=
  String.mk (get_col_name_go n [])

/-- `iter_col_names(n_cols)` from `image2excel.py`: the finite sequence of
column names `get_col_name(i)` for `i in range(1, n_cols + 1)`, in order. -/
def iter_col_names (n_cols : ℕ) : List String :=
  (List.range n_cols).map (fun i => get_col_name (i + 1))

/-- The list `rgb = ['0000FF', '00FF00', 'FF0000']` of `apply_colors`. -/
def rgb : List String := ["0000FF", "00FF00", "FF0000"]

/-- `apply_colors(ws, n_rows, n_cols)` from `image2excel.py`, as the list of
conditional-formatting rules it attaches, in order: for
`r in range(1, n_rows + 1)` a rule with end color `rgb[(r - 1) % 3]` over
the range `f'A{r}:{end_col}{r}'` where `end_col = get_col_name(n_cols)`. -/
def apply_colors (n_rows n_cols : ℕ) : List Rule :=
  (List.range n_rows).map (fun i =>
    let r := i + 1
    { start_type := "num"
      start_value := 0
      start_color := "000000"
      end_type := "num"
      end_value := 255
      end_color := rgb.getD ((r - 1) % 3) ""
      cell_range := "A" ++ toString r ++ ":" ++ get_col_name n_cols ++ toString r })

/-- Model of the image decoder `cv2.imread`: a path either decodes to an
image or fails (`cv2.imread` returns `None`). -/
def Decoder : Type := String → Option Img

/-- Modelled from the spec: `Path(image).stem`, the input filename's stem
(`pathlib` is an external collaborator; only the default-output naming of
`main` uses it, and no claim depends on its exact value). -/
def path_stem (s : String) : String :=
  String.mk (((s.toList.reverse.takeWhile (· ≠ '/')).dropWhile (· ≠ '.')).drop 1).reverse

/-- The saved spreadsheet: one sheet (`wb.create_sheet(title='Image')`) whose
rows are appended by `write_img_to_ws`, whose conditional-formatting rules
are attached by `apply_colors`, saved by `wb.save(output)` to `path`. -/
structure SpreadsheetFile where
  path : String
  sheetTitle : String
  rows : List (List Cell)
  rules : List Rule

/-- `main(image, output=None)` from `image2excel.py`, parameterised by the
image decoder: `img = cv2.imread(image)`; if `img is None` raise
`Exception(f'Failed to load image "{image}".')` (modelled as `Except.error`);
otherwise bound the image to `MAX_SIZE`, write it to the worksheet, apply
colors with `n_rows = img.shape[0] * img.shape[2]` and
`n_cols = img.shape[1]`, and save to `output` (defaulted to
`Path(image).stem + '.xlsx'`). -/
def Image2excel.main (imread : Decoder) (image : String) (output : Option String) :
    Except String SpreadsheetFile :=
  match imread image with
  | none => Except.error ("Failed to load image \"" ++ image ++ "\".")
  | some img0 =>
    let img := bound_image_to_size img0 MAX_SIZE
    Except.ok
      { path := (output.getD (path_stem image ++ ".xlsx"))
        sheetTitle := "Image"
        rows := write_img_to_ws img
        rules := apply_colors (img.height * img.channels) img.width }

/-! ## Scaler theorems -/

/-- C3: for every image whose height is ≤ `maxH` and whose width is ≤ `maxW`,
`bound_image_to_size` returns the image unchanged (identity; no upscaling
ever occurs). -/
theorem bound_image_to_size_id_of_fits (img : Img) (size : ℕ × ℕ)
    (h1 : img.height ≤ size.1) (h2 : img.width ≤ size.2) :
    bound_image_to_size img size = img := by
  simp [bound_image_to_size, h1, h2]

/-- Witness for C3 at a concrete 100×300×3 image within `MAX_SIZE`. -/
theorem bound_image_to_size_id_of_fits_witness :
    bound_image_to_size ⟨100, 300, 3, fun _ _ _ => 7⟩ MAX_SIZE =
      ⟨100, 300, 3, fun _ _ _ => 7⟩ :=
  bound_image_to_size_id_of_fits ⟨100, 300, 3, fun _ _ _ => 7⟩ MAX_SIZE
    (by decide) (by decide)

/-- C1: whenever `bound_image_to_size` actually resizes (height exceeds the
height bound or width exceeds the width bound), the limiting dimension of the
result equals exactly its bound, the other dimension is
`⌊original * scale⌋` and is ≤ its own bound, and the scale factor is strictly
less than 1. -/
theorem bound_image_to_size_shrinks (img : Img) (size : ℕ × ℕ)
    (hH : 0 < img.height) (hW : 0 < img.width)
    (hresize : size.1 < img.height ∨ size.2 < img.width) :
    ((bound_image_to_size img size).height = size.1 ∧
      (bound_image_to_size img size).width =
        (⌊(img.width : ℚ) * ((size.1 : ℚ) / (img.height : ℚ))⌋).toNat ∧
      (bound_image_to_size img size).width ≤ size.2 ∧
      (size.1 : ℚ) / (img.height : ℚ) < 1) ∨
    ((bound_image_to_size img size).width = size.2 ∧
      (bound_image_to_size img size).height =
        (⌊(img.height : ℚ) * ((size.2 : ℚ) / (img.width : ℚ))⌋).toNat ∧
      (bound_image_to_size img size).height ≤ size.1 ∧
      (size.2 : ℚ) / (img.width : ℚ) < 1) := by
  obtain ⟨mH, mW⟩ := size
  obtain ⟨H, W, ch, pix⟩ := img
  simp only at hH hW hresize ⊢
  have hfits : ¬(H ≤ mH ∧ W ≤ mW) := by omega
  have hHQ : (0 : ℚ) < (H : ℚ) := by exact_mod_cast hH
  have hWQ : (0 : ℚ) < (W : ℚ) := by exact_mod_cast hW
  by_cases hc : (mH : ℚ) / (max H mH : ℕ) < (mW : ℚ) / (max W mW : ℕ)
  · -- height is limiting
    have hHlt : mH < H := by
      by_contra hle
      push_neg at hle
      have hmax1 : max H mH = mH := by omega
      have hmH : 0 < mH := by omega
      have hL : (mH : ℚ) / (max H mH : ℕ) = 1 := by
        rw [hmax1]
        exact div_self (by exact_mod_cast hmH.ne')
      have hmaxW : 0 < max W mW := by omega
      have hR : (mW : ℚ) / (max W mW : ℕ) ≤ 1 := by
        rw [div_le_one (by exact_mod_cast hmaxW)]
        exact_mod_cast le_max_right W mW
      rw [hL] at hc
      exact absurd (lt_of_lt_of_le hc hR) (lt_irrefl 1)
    have hscale : (mH : ℚ) / (H : ℚ) < 1 := by
      rw [div_lt_one hHQ]
      exact_mod_cast hHlt
    left
    have hres : bound_image_to_size ⟨H, W, ch, pix⟩ (mH, mW) =
        cv2_resize ⟨H, W, ch, pix⟩
          (⌊(W : ℚ) * ((mH : ℚ) / (H : ℚ))⌋).toNat mH := by
      rw [bound_image_to_size, if_neg (by simpa using hfits), if_pos (by simpa using hc)]
    refine ⟨by rw [hres]; rfl, by rw [hres]; rfl, ?_, hscale⟩
    rw [hres]
    show (⌊(W : ℚ) * ((mH : ℚ) / (H : ℚ))⌋).toNat ≤ mW
    have hxlt : (W : ℚ) * ((mH : ℚ) / (H : ℚ)) < (mW : ℚ) ∨
        (W : ℚ) * ((mH : ℚ) / (H : ℚ)) ≤ (mW : ℚ) := by
      rcases le_or_lt W mW with hWle | hWgt
      · left
        calc (W : ℚ) * ((mH : ℚ) / (H : ℚ)) < (W : ℚ) := mul_lt_of_lt_one_right hWQ hscale
        _ ≤ (mW : ℚ) := by exact_mod_cast hWle
      · left
        have hmax1 : max H mH = H := by omega
        have hmax2 : max W mW = W := by omega
        rw [hmax1, hmax2, div_lt_div_iff hHQ hWQ] at hc
        rw [mul_div_assoc', div_lt_iff hHQ]
        nlinarith [hc]
    have hxle : (W : ℚ) * ((mH : ℚ) / (H : ℚ)) ≤ (mW : ℚ) := by
      rcases hxlt with h | h
      · exact le_of_lt h
      · exact h
    rw [Int.toNat_le]
    calc ⌊(W : ℚ) * ((mH : ℚ) / (H : ℚ))⌋ ≤ ⌊(mW : ℚ)⌋ := Int.floor_le_floor hxle
    _ = (mW : ℤ) := Int.floor_natCast mW
  · -- width is limiting
    have hWlt : mW < W := by
      by_contra hle
      push_neg at hle
      have hmax2 : max W mW = mW := by omega
      have hmW : 0 < mW := by omega
      have hR : (mW : ℚ) / (max W mW : ℕ) = 1 := by
        rw [hmax2]
        exact div_self (by exact_mod_cast hmW.ne')
      push_neg at hc
      rw [hR] at hc
      have hmaxH : 0 < max H mH := by omega
      have hle2 : (max H mH : ℕ) ≤ (mH : ℚ) := by
        rw [le_div_iff (by exact_mod_cast hmaxH)] at hc
        linarith [hc]
      have : max H mH ≤ mH := by exact_mod_cast hle2
      omega
    have hscale : (mW : ℚ) / (W : ℚ) < 1 := by
      rw [div_lt_one hWQ]
      exact_mod_cast hWlt
    right
    have hres : bound_image_to_size ⟨H, W, ch, pix⟩ (mH, mW) =
        cv2_resize ⟨H, W, ch, pix⟩ mW
          (⌊(H : ℚ) * ((mW : ℚ) / (W : ℚ))⌋).toNat := by
      rw [bound_image_to_size, if_neg (by simpa using hfits), if_neg (by simpa using hc)]
    refine ⟨by rw [hres]; rfl, by rw [hres]; rfl, ?_, hscale⟩
    rw [hres]
    show (⌊(H : ℚ) * ((mW : ℚ) / (W : ℚ))⌋).toNat ≤ mH
    have hxle : (H : ℚ) * ((mW : ℚ) / (W : ℚ)) ≤ (mH : ℚ) := by
      rcases le_or_lt H mH with hHle | hHgt
      · have hlt : (H : ℚ) * ((mW : ℚ) / (W : ℚ)) < (H : ℚ) :=
          mul_lt_of_lt_one_right hHQ hscale
        have hle2 : (H : ℚ) ≤ (mH : ℚ) := by exact_mod_cast hHle
        linarith
      · have hmax1 : max H mH = H := by omega
        have hmax2 : max W mW = W := by omega
        push_neg at hc
        rw [hmax1, hmax2, div_le_div_iff hWQ hHQ] at hc
        rw [mul_div_assoc', div_le_iff hWQ]
        nlinarith [hc]
    rw [Int.toNat_le]
    calc ⌊(H : ℚ) * ((mW : ℚ) / (W : ℚ))⌋ ≤ ⌊(mH : ℚ)⌋ := Int.floor_le_floor hxle
    _ = (mH : ℤ) := Int.floor_natCast mH

/-- Witness for C1 at a concrete 400×800×3 image and bound (200, 477). -/
theorem bound_image_to_size_shrinks_witness :
    ((bound_image_to_size ⟨400, 800, 3, fun _ _ _ => 0⟩ (200, 477)).height = 200 ∧
      (bound_image_to_size ⟨400, 800, 3, fun _ _ _ => 0⟩ (200, 477)).width =
        (⌊(800 : ℚ) * ((200 : ℚ) / (400 : ℚ))⌋).toNat ∧
      (bound_image_to_size ⟨400, 800, 3, fun _ _ _ => 0⟩ (200, 477)).width ≤ 477 ∧
      (200 : ℚ) / (400 : ℚ) < 1) ∨
    ((bound_image_to_size ⟨400, 800, 3, fun _ _ _ => 0⟩ (200, 477)).width = 477 ∧
      (bound_image_to_size ⟨400, 800, 3, fun _ _ _ => 0⟩ (200, 477)).height =
        (⌊(400 : ℚ) * ((477 : ℚ) / (800 : ℚ))⌋).toNat ∧
      (bound_image_to_size ⟨400, 800, 3, fun _ _ _ => 0⟩ (200, 477)).height ≤ 200 ∧
      (477 : ℚ) / (800 : ℚ) < 1) := by
  have h := bound_image_to_size_shrinks ⟨400, 800, 3, fun _ _ _ => 0⟩ (200, 477)
    (by norm_num) (by norm_num) (Or.inl (by norm_num))
  simpa using h

/-- C2 counterexample: on a 400×800 image with bound (200, 477) the code
takes the height-limiting branch (200/400 < 477/800), so the returned image
has width 400, not 477. -/
theorem bound_image_to_size_400x800_not_width477 :
    (bound_image_to_size ⟨400, 800, 3, fun _ _ _ => 0⟩ (200, 477)).width ≠ 477 := by
  have h : (bound_image_to_size ⟨400, 800, 3, fun _ _ _ => 0⟩ (200, 477)).width = 400 := by
    norm_num [bound_image_to_size, cv2_resize]; rfl
  rw [h]
  omega

/-- C2 amended: for the 400×800 image with bound (200, 477),
`bound_image_to_size` treats height as the limiting dimension
(200/400 < 477/800) and returns an image of height exactly 200 and width
`⌊800 * (200/400)⌋ = 400`. -/
theorem bound_image_to_size_400x800_height_limiting :
    (bound_image_to_size ⟨400, 800, 3, fun _ _ _ => 0⟩ (200, 477)).height = 200 ∧
    (bound_image_to_size ⟨400, 800, 3, fun _ _ _ => 0⟩ (200, 477)).width = 400 := by
  constructor <;> (norm_num [bound_image_to_size, cv2_resize] <;> rfl)

/-- C10: a valid non-empty 1×1000 image exceeds the (200, 477) bound in
width only, yet the non-limiting target dimension computed by
`bound_image_to_size`, `⌊1 * (477/1000)⌋`, equals 0: the resize is requested
with height 0, and the result is not a valid non-empty image. -/
theorem bound_image_to_size_zero_dimension :
    ((1 : ℕ) ≤ 200 ∧ 477 < (1000 : ℕ)) ∧
    (bound_image_to_size ⟨1, 1000, 3, fun _ _ _ => 0⟩ (200, 477)).height =
      (⌊(1 : ℚ) * ((477 : ℚ) / (1000 : ℚ))⌋).toNat ∧
    (bound_image_to_size ⟨1, 1000, 3, fun _ _ _ => 0⟩ (200, 477)).height = 0 ∧
    ¬(0 < (bound_image_to_size ⟨1, 1000, 3, fun _ _ _ => 0⟩ (200, 477)).height) := by
  refine ⟨⟨by norm_num, by norm_num⟩, ?_, ?_, ?_⟩
  · norm_num [bound_image_to_size, cv2_resize]
  · norm_num [bound_image_to_size, cv2_resize]
  · norm_num [bound_image_to_size, cv2_resize]

/-! ## Grid-writer theorems -/

/-- Length of a `flatMap` over `List.range` whose blocks all have length
`k`. -/
lemma length_flatMap_range_const {α : Type} (f : ℕ → List α) (n k : ℕ)
    (hk : ∀ i, (f i).length = k) :
    ((List.range n).flatMap f).length = n * k := by
  rw [List.length_flatMap]
  have hrep : (List.range n).map (List.length ∘ f) = List.replicate n k := by
    refine List.eq_replicate.mpr ⟨by simp, ?_⟩
    intro b hb
    rcases List.mem_map.mp hb with ⟨i, _, hib⟩
    rw [← hib]
    exact hk i
  rw [hrep, List.sum_replicate, smul_eq_mul]

/-- Block-indexing of a `flatMap` over `List.range` whose blocks all have
length `k`: element `r * k + c` is element `c` of block `r`. -/
lemma getElem?_flatMap_range_const {α : Type} (f : ℕ → List α) (k : ℕ)
    (hk : ∀ i, (f i).length = k) :
    ∀ n r c : ℕ, r < n → c < k →
      ((List.range n).flatMap f)[r * k + c]? = (f r)[c]? := by
  intro n
  induction n with
  | zero => intro r c hr _; omega
  | succ m ih =>
    intro r c hr hc
    rw [List.range_succ, List.flatMap_append]
    have hlen : ((List.range m).flatMap f).length = m * k :=
      length_flatMap_range_const f m k hk
    rcases Nat.lt_or_ge r m with hrm | hrm
    · have hlt : r * k + c < ((List.range m).flatMap f).length := by
        rw [hlen]
        calc r * k + c < r * k + k := by omega
        _ = (r + 1) * k := by ring
        _ ≤ m * k := Nat.mul_le_mul_right k (by omega)
      rw [List.getElem?_append_left hlt]
      exact ih r c hrm hc
    · have hreq : r = m := by omega
      subst hreq
      rw [List.getElem?_append_right (by omega)]
      simp [hlen]

/-- C4: for every H×W×3 image, `write_img_to_ws` appends exactly `H * 3`
rows of exactly `W` cells each, and 0-indexed worksheet row `3 * r + c`
holds, in column order, exactly the channel-`c` intensity values of image
row `r`, unmodified. -/
theorem write_img_to_ws_grid (img : Img) (hch : img.channels = 3) :
    (write_img_to_ws img).length = img.height * 3 ∧
    (∀ row ∈ write_img_to_ws img, row.length = img.width) ∧
    ∀ r c, r < img.height → c < 3 →
      (write_img_to_ws img)[3 * r + c]? =
        some ((List.range img.width).map (fun j => mk_cell (img.pixel r j c))) ∧
      ((write_img_to_ws img)[3 * r + c]?.getD []).map Cell.value =
        (List.range img.width).map (fun j => img.pixel r j c) := by
  have hk : ∀ r, ((List.range img.channels).map (fun channel =>
      (List.range img.width).map (fun c => mk_cell (img.pixel r c channel)))).length = 3 := by
    intro r
    simp [hch]
  refine ⟨?_, ?_, ?_⟩
  · rw [write_img_to_ws, length_flatMap_range_const _ _ 3 hk]
  · intro row hrow
    rw [write_img_to_ws] at hrow
    rcases List.mem_flatMap.mp hrow with ⟨r, _, hmem⟩
    rcases List.mem_map.mp hmem with ⟨channel, _, hrow'⟩
    rw [← hrow']
    simp
  · intro r c hr hc
    have hidx : 3 * r + c = r * 3 + c := by ring
    have h1 : (write_img_to_ws img)[3 * r + c]? =
        some ((List.range img.width).map (fun j => mk_cell (img.pixel r j c))) := by
      rw [hidx, write_img_to_ws, getElem?_flatMap_range_const _ 3 hk img.height r c hr hc]
      rw [List.getElem?_map, List.getElem?_range (by omega)]
      rfl
    refine ⟨h1, ?_⟩
    rw [h1]
    simp [mk_cell]

/-- Witness for C4 at a concrete 1×2×3 image, row 0, channel 2. -/
theorem write_img_to_ws_grid_witness :
    (write_img_to_ws ⟨1, 2, 3, fun r c k => 100 * r + 10 * c + k⟩).length = 1 * 3 ∧
    ((write_img_to_ws ⟨1, 2, 3, fun r c k => 100 * r + 10 * c + k⟩)[3 * 0 + 2]?.getD
        []).map Cell.value =
      (List.range 2).map (fun j => 10 * j + 2) := by
  have h := write_img_to_ws_grid ⟨1, 2, 3, fun r c k => 100 * r + 10 * c + k⟩ rfl
  exact ⟨h.1, by simpa using (h.2.2 0 2 (by decide) (by decide)).2⟩

/-! ## Color-rule theorems -/

/-- C5: for every grid of `n_rows` rows and `n_cols` columns, `apply_colors`
attaches exactly one two-stop color-scale rule per 1-indexed row `r` (the
`i`-th rule, `r = i + 1`), with start value 0 colored `000000` and end value
255 colored by entry `(r - 1) % 3` of the cycle
`["0000FF", "00FF00", "FF0000"]` (blue, green, red), over the range
`A{r}:{get_col_name n_cols}{r}`. -/
theorem apply_colors_rules (n_rows n_cols : ℕ) :
    (apply_colors n_rows n_cols).length = n_rows ∧
    ∀ i, i < n_rows →
      (apply_colors n_rows n_cols)[i]? = some
        { start_type := "num"
          start_value := 0
          start_color := "000000"
          end_type := "num"
          end_value := 255
          end_color := ["0000FF", "00FF00", "FF0000"].getD ((i + 1 - 1) % 3) ""
          cell_range := "A" ++ toString (i + 1) ++ ":" ++ get_col_name n_cols ++
            toString (i + 1) } := by
  refine ⟨by simp [apply_colors], ?_⟩
  intro i hi
  rw [apply_colors, List.getElem?_map, List.getElem?_range hi]
  rfl

/-- Witness for C5 at a 2-row, 703-column grid, rule index 1 (row 2). -/
theorem apply_colors_rules_witness :
    (apply_colors 2 703).length = 2 ∧
    (apply_colors 2 703)[1]? = some
      { start_type := "num"
        start_value := 0
        start_color := "000000"
        end_type := "num"
        end_value := 255
        end_color := ["0000FF", "00FF00", "FF0000"].getD ((1 + 1 - 1) % 3) ""
        cell_range := "A" ++ toString (1 + 1) ++ ":" ++ get_col_name 703 ++
          toString (1 + 1) } :=
  ⟨(apply_colors_rules 2 703).1, (apply_colors_rules 2 703).2 1 (by decide)⟩

/-! ## Column-namer theorems -/

/-- C6: `get_col_name` realises bijective base-26 column naming at the
spec's sample points: 1 ↦ "A", 26 ↦ "Z", 27 ↦ "AA", 702 ↦ "ZZ",
703 ↦ "AAA". -/
theorem get_col_name_values :
    get_col_name 1 = "A" ∧ get_col_name 26 = "Z" ∧ get_col_name 27 = "AA" ∧
    get_col_name 702 = "ZZ" ∧ get_col_name 703 = "AAA" := by
  refine ⟨?_, ?_, ?_, ?_, ?_⟩ <;> simp [get_col_name, get_col_name_go, ascii_uppercase]

/-- The value of an uppercase letter as a bijective base-26 digit:
`'A'` is 1, ..., `'Z'` is 26. -/
def digit_val (c : Char) : ℕ := c.toNat - 64

/-- Decoding a letter string under bijective base 26: the inverse direction
of the round trip stated by the spec. -/
def decode_col_name (s : String) : ℕ :=
  s.toList.foldl (fun a c => 26 * a + digit_val c) 0

/-- The digit at index `i < 26` of `string.ascii_uppercase` has bijective
base-26 value `i + 1`. -/
lemma digit_val_ascii (i : ℕ) (hi : i < 26) :
    digit_val (ascii_uppercase.toList.getD i 'A') = i + 1 := by
  revert hi
  revert i
  decide

/-- Folding the decoding step from an arbitrary accumulator. -/
lemma decode_foldl_acc (l : List Char) : ∀ acc : ℕ,
    List.foldl (fun a c => 26 * a + digit_val c) acc l =
      acc * 26 ^ l.length + List.foldl (fun a c => 26 * a + digit_val c) 0 l := by
  induction l with
  | nil => intro acc; simp
  | cons c l ih =>
    intro acc
    simp only [List.foldl_cons, List.length_cons]
    rw [ih (26 * acc + digit_val c), ih (26 * 0 + digit_val c)]
    ring

/-- Decoding what the `while` loop of `get_col_name` produces: the digits it
prepends before `col` carry value `n` in bijective base 26. -/
lemma decode_get_col_name_go (n : ℕ) : ∀ col : List Char,
    List.foldl (fun a c => 26 * a + digit_val c) 0 (get_col_name_go n col) =
      n * 26 ^ col.length + List.foldl (fun a c => 26 * a + digit_val c) 0 col := by
  induction n using Nat.strong_induction_on with
  | _ n ih =>
    intro col
    rw [get_col_name_go]
    by_cases hn : 0 < n
    · rw [if_pos hn]
      have hlt : (n - 1) / 26 < n :=
        lt_of_le_of_lt (Nat.div_le_self _ _) (Nat.sub_lt hn one_pos)
      rw [ih _ hlt]
      simp only [List.foldl_cons, List.length_cons]
      rw [decode_foldl_acc col (26 * 0 + digit_val (ascii_uppercase.toList.getD ((n - 1) % 26) 'A'))]
      rw [digit_val_ascii _ (Nat.mod_lt _ (by norm_num))]
      have key : ∀ q r L F : ℕ, 26 * q + r = n - 1 →
          q * 26 ^ (L + 1) + ((26 * 0 + (r + 1)) * 26 ^ L + F) = n * 26 ^ L + F := by
        intro q r L F h1
        have hn2 : n = 26 * q + r + 1 := by omega
        subst hn2
        ring
      exact key _ _ _ _ (Nat.div_add_mod (n - 1) 26)
    · rw [if_neg hn]
      have hn0 : n = 0 := by omega
      subst hn0
      ring

/-- Round trip of the column namer: decoding `get_col_name n` in bijective
base 26 recovers `n`. -/
lemma decode_get_col_name (n : ℕ) : decode_col_name (get_col_name n) = n := by
  have h := decode_get_col_name_go n []
  simpa [decode_col_name, get_col_name] using h

/-- C7: `get_col_name` is injective on positive integers up to 18278, and
the round trip holds: decoding the generated name under bijective base 26
recovers `n` for every `1 ≤ n ≤ 18278`. -/
theorem get_col_name_roundtrip_injective :
    (∀ n, 1 ≤ n → n ≤ 18278 → decode_col_name (get_col_name n) = n) ∧
    (∀ m n, 1 ≤ m → m ≤ 18278 → 1 ≤ n → n ≤ 18278 →
      get_col_name m = get_col_name n → m = n) := by
  refine ⟨fun n _ _ => decode_get_col_name n, fun m n _ _ _ _ heq => ?_⟩
  have hm := decode_get_col_name m
  have hn := decode_get_col_name n
  rw [heq] at hm
  omega

/-- Witness for C7: the round trip and injectivity instantiated at 703 and
702. -/
theorem get_col_name_roundtrip_injective_witness :
    decode_col_name (get_col_name 703) = 703 ∧
    (get_col_name 702 = get_col_name 703 → 702 = 703) :=
  ⟨get_col_name_roundtrip_injective.1 703 (by norm_num) (by norm_num),
    fun h => get_col_name_roundtrip_injective.2 702 703 (by norm_num) (by norm_num)
      (by norm_num) (by norm_num) h⟩

/-- An uppercase letter `'A'`–`'Z'`, i.e. a valid bijective base-26 digit
character. -/
def upperChar (c : Char) : Prop := 65 ≤ c.toNat ∧ c.toNat ≤ 90

instance (c : Char) : Decidable (upperChar c) := by
  unfold upperChar
  infer_instance

/-- Spreadsheet column order on column names: shorter names come first, and
names of equal length compare lexicographically character by character
(A, B, …, Z, AA, AB, …). -/
def col_name_lt (s t : String) : Prop :=
  s.toList.length < t.toList.length ∨
    (s.toList.length = t.toList.length ∧ List.Lex (· < ·) s.toList t.toList)

/-- Every character the `get_col_name` loop emits is an uppercase letter. -/
lemma get_col_name_go_upper (n : ℕ) : ∀ col : List Char,
    (∀ c ∈ col, upperChar c) → ∀ c ∈ get_col_name_go n col, upperChar c := by
  induction n using Nat.strong_induction_on with
  | _ n ih =>
    intro col hcol
    rw [get_col_name_go]
    by_cases hn : 0 < n
    · rw [if_pos hn]
      have hlt : (n - 1) / 26 < n :=
        lt_of_le_of_lt (Nat.div_le_self _ _) (Nat.sub_lt hn one_pos)
      refine ih _ hlt _ ?_
      intro c hc
      rcases List.mem_cons.mp hc with hc | hc
      · subst hc
        have hdig : ∀ i, i < 26 → upperChar (ascii_uppercase.toList.getD i 'A') := by
          decide
        exact hdig _ (Nat.mod_lt _ (by norm_num))
      · exact hcol c hc
    · rw [if_neg hn]
      exact hcol

/-- Decoding a cons: the head digit is weighted by `26 ^ length`. -/
lemma decode_cons (c : Char) (l : List Char) :
    List.foldl (fun a c => 26 * a + digit_val c) 0 (c :: l) =
      digit_val c * 26 ^ l.length + List.foldl (fun a c => 26 * a + digit_val c) 0 l := by
  simp only [List.foldl_cons]
  rw [decode_foldl_acc l (26 * 0 + digit_val c)]
  ring

/-- Lower bound on the decoded value of a string of valid digits: a `k`-digit
string decodes to at least `(26 ^ k - 1) / 25` (the all-`A` string). -/
lemma decode_lower (l : List Char) (h : ∀ c ∈ l, 1 ≤ digit_val c) :
    26 ^ l.length ≤ 25 * List.foldl (fun a c => 26 * a + digit_val c) 0 l + 1 := by
  induction l with
  | nil => simp
  | cons c l ih =>
    rw [decode_cons, List.length_cons, pow_succ]
    have h1 : 1 ≤ digit_val c := h c (List.mem_cons_self c l)
    have ih2 := ih (fun x hx => h x (List.mem_cons_of_mem c hx))
    nlinarith [ih2, h1, pow_pos (show (0:ℕ) < 26 by norm_num) l.length]

/-- Upper bound on the decoded value of a string of valid digits: a `k`-digit
string decodes to at most `26 * (26 ^ k - 1) / 25` (the all-`Z` string). -/
lemma decode_upper (l : List Char) (h : ∀ c ∈ l, digit_val c ≤ 26) :
    25 * List.foldl (fun a c => 26 * a + digit_val c) 0 l + 26 ≤ 26 ^ (l.length + 1) := by
  induction l with
  | nil => simp
  | cons c l ih =>
    rw [decode_cons, List.length_cons, pow_succ, pow_succ]
    have h1 : digit_val c ≤ 26 := h c (List.mem_cons_self c l)
    have ih2 := ih (fun x hx => h x (List.mem_cons_of_mem c hx))
    rw [pow_succ] at ih2
    nlinarith [ih2, Nat.mul_le_mul_right (26 ^ l.length) h1]

/-- Valid digit bounds for uppercase letters. -/
lemma upperChar_digit_val {c : Char} (h : upperChar c) :
    1 ≤ digit_val c ∧ digit_val c ≤ 26 := by
  obtain ⟨h1, h2⟩ := h
  unfold digit_val
  omega

/-- A strictly shorter string of valid digits decodes to a strictly smaller
value. -/
lemma decode_lt_of_length_lt (s t : List Char) (hst : t.length < s.length)
    (hs : ∀ c ∈ s, upperChar c) (ht : ∀ c ∈ t, upperChar c) :
    List.foldl (fun a c => 26 * a + digit_val c) 0 t <
      List.foldl (fun a c => 26 * a + digit_val c) 0 s := by
  have hlow := decode_lower s (fun c hc => (upperChar_digit_val (hs c hc)).1)
  have hup := decode_upper t (fun c hc => (upperChar_digit_val (ht c hc)).2)
  have hpow : (26 : ℕ) ^ (t.length + 1) ≤ 26 ^ s.length :=
    Nat.pow_le_pow_right (by norm_num) (by omega)
  omega

/-- Among equal-length strings of valid digits, a smaller decoded value means
lexicographically smaller. -/
lemma lex_of_decode_lt : ∀ s t : List Char, s.length = t.length →
    (∀ c ∈ s, upperChar c) → (∀ c ∈ t, upperChar c) →
    List.foldl (fun a c => 26 * a + digit_val c) 0 s <
      List.foldl (fun a c => 26 * a + digit_val c) 0 t →
    List.Lex (· < ·) s t := by
  intro s
  induction s with
  | nil =>
    intro t hlen _ _ hd
    cases t with
    | nil => exact absurd hd (lt_irrefl _)
    | cons d t' => simp at hlen
  | cons c s ih =>
    intro t hlen hs ht hd
    cases t with
    | nil => simp at hlen
    | cons d t' =>
      have hlen' : s.length = t'.length := by simpa using hlen
      have hcu : upperChar c := hs c (List.mem_cons_self c s)
      have hdu : upperChar d := ht d (List.mem_cons_self d t')
      have hsu : ∀ x ∈ s, upperChar x := fun x hx => hs x (List.mem_cons_of_mem c hx)
      have htu : ∀ x ∈ t', upperChar x := fun x hx => ht x (List.mem_cons_of_mem d hx)
      rcases lt_trichotomy (digit_val c) (digit_val d) with hcd | hcd | hcd
      · refine List.Lex.rel ?_
        have h1 : 65 ≤ c.toNat := hcu.1
        have h2 : c.toNat - 64 < d.toNat - 64 := hcd
        have hlt : c.toNat < d.toNat := by omega
        exact hlt
      · have hceq : c = d := by
          apply Char.ext
          apply UInt32.ext
          have h1 : 65 ≤ c.toNat := hcu.1
          have h2 : 65 ≤ d.toNat := hdu.1
          have h3 : c.toNat - 64 = d.toNat - 64 := hcd
          have h4 : c.toNat = d.toNat := by omega
          exact h4
        subst hceq
        refine List.Lex.cons ?_
        refine ih t' hlen' hsu htu ?_
        rw [decode_cons, decode_cons, hlen'] at hd
        exact Nat.lt_of_add_lt_add_left hd
      · exfalso
        have hts : List.foldl (fun a c => 26 * a + digit_val c) 0 (d :: t') <
            List.foldl (fun a c => 26 * a + digit_val c) 0 (c :: s) := by
          rw [decode_cons, decode_cons, hlen']
          have hup := decode_upper t' (fun x hx => (upperChar_digit_val (htu x hx)).2)
          have hlow := decode_lower s (fun x hx => (upperChar_digit_val (hsu x hx)).1)
          rw [hlen'] at hlow
          rw [pow_succ] at hup
          have hmul := Nat.mul_le_mul_right (26 ^ t'.length) (show digit_val d + 1 ≤ digit_val c from hcd)
          nlinarith [hup, hlow, hmul]
        omega

/-- `get_col_name` is strictly monotone for the spreadsheet column order. -/
lemma col_name_lt_mono (m n : ℕ) (h : m < n) :
    col_name_lt (get_col_name m) (get_col_name n) := by
  have hsu : ∀ c ∈ (get_col_name m).toList, upperChar c :=
    get_col_name_go_upper m [] (by intro c hc; simp at hc)
  have htu : ∀ c ∈ (get_col_name n).toList, upperChar c :=
    get_col_name_go_upper n [] (by intro c hc; simp at hc)
  have hdm : List.foldl (fun a c => 26 * a + digit_val c) 0 (get_col_name m).toList = m :=
    decode_get_col_name m
  have hdn : List.foldl (fun a c => 26 * a + digit_val c) 0 (get_col_name n).toList = n :=
    decode_get_col_name n
  rcases lt_trichotomy (get_col_name m).toList.length (get_col_name n).toList.length with
    hl | hl | hl
  · exact Or.inl hl
  · refine Or.inr ⟨hl, ?_⟩
    refine lex_of_decode_lt _ _ hl hsu htu ?_
    rw [hdm, hdn]
    exact h
  · exfalso
    have := decode_lt_of_length_lt (get_col_name m).toList (get_col_name n).toList hl hsu htu
    rw [hdm, hdn] at this
    omega

/-- C8: `iter_col_names n` yields exactly `n` names, the `i`-th (1-indexed)
being `get_col_name i`, in strictly ascending spreadsheet column order. -/
theorem iter_col_names_spec (n : ℕ) :
    (iter_col_names n).length = n ∧
    (∀ i, 1 ≤ i → i ≤ n → (iter_col_names n)[i - 1]? = some (get_col_name i)) ∧
    (iter_col_names n).Pairwise col_name_lt := by
  refine ⟨by simp [iter_col_names], ?_, ?_⟩
  · intro i h1 h2
    rw [iter_col_names, List.getElem?_map, List.getElem?_range (by omega)]
    have : i - 1 + 1 = i := by omega
    rw [Option.map_some']
    rw [this]
  · rw [iter_col_names]
    refine List.pairwise_map.mpr ?_
    refine (List.pairwise_lt_range n).imp ?_
    intro a b hab
    exact col_name_lt_mono (a + 1) (b + 1) (by omega)

/-- Witness for C8 at `n = 3`, `i = 2`. -/
theorem iter_col_names_spec_witness :
    (iter_col_names 3).length = 3 ∧
    (iter_col_names 3)[2 - 1]? = some (get_col_name 2) ∧
    (iter_col_names 3).Pairwise col_name_lt :=
  ⟨(iter_col_names_spec 3).1, (iter_col_names_spec 3).2.1 2 (by decide) (by decide),
    (iter_col_names_spec 3).2.2⟩

/-! ## Error-handling theorems -/

/-- C9: `main` fails — with the decode-failure error, before any scaling or
worksheet work and producing no output file — exactly when the decoder
returns no image: an error is raised if and only if `imread` returns `none`,
and on any decoded image `main` succeeds with a saved file. -/
theorem main_decode_error (imread : Decoder) (image : String) (output : Option String) :
    (imread image = none →
      Image2excel.main imread image output =
        Except.error ("Failed to load image \"" ++ image ++ "\".")) ∧
    ((∃ e, Image2excel.main imread image output = Except.error e) ↔ imread image = none) := by
  refine ⟨?_, ?_, ?_⟩
  · intro h
    unfold Image2excel.main
    rw [h]
  · rintro ⟨e, he⟩
    cases h : imread image with
    | none => rfl
    | some img =>
      unfold Image2excel.main at he
      rw [h] at he
      exact absurd he (by simp)
  · intro h
    refine ⟨"Failed to load image \"" ++ image ++ "\".", ?_⟩
    unfold Image2excel.main
    rw [h]

/-- Witness for C9: a decoder that always fails makes `main` return exactly
the decode error. -/
theorem main_decode_error_witness :
    Image2excel.main (fun _ => none) "missing.png" none =
      Except.error ("Failed to load image \"" ++ "missing.png" ++ "\".") :=
  (main_decode_error (fun _ => none) "missing.png" none).1 rfl
